import Mathlib

/-!
Verification of the FAISS-backed retrieval engine in
`src/app/utils/vector_db.py` (class `VectorDatabase`).

Python text is modelled as `List Char` with Python slicing/`rfind`/`strip`
semantics.  Machine floats are modelled as `ℚ`; the external embedding model
(`SentenceTransformer.encode`) is an oracle of type
`List Str → Option (List Vec)` (`none` = the call raised), and
`faiss.normalize_L2` is an abstract per-vector map, since none of the claims
depend on the numeric values of embeddings.  The `while` loop of
`chunk_text` is embedded with explicit fuel; `none` means the loop has not
finished within the given fuel (the Python loop can in fact diverge, see the
theorems on non-termination below).
-/

namespace RagDB

/-- Python text: a string as a list of characters. -/
abbrev Str := List Char

/-- Coerce a Lean string literal to the `Str` model. -/
def str (s : String) : Str := s.data

/-- The whitespace set stripped by Python's `str.strip()`. -/
def pyIsSpace (c : Char) : Bool :=
  c = ' ' || c = '\t' || c = '\n' || c = '\r' || c = '\x0b' || c = '\x0c'

/-- Python `s.strip()`: drop whitespace from both ends. -/
def pyStrip (l : Str) : Str :=
  ((l.dropWhile pyIsSpace).reverse.dropWhile pyIsSpace).reverse

/-- `true` iff the text has no leading and no trailing whitespace
(the postcondition of `str.strip()`). -/
def noEdgeWhitespace (l : Str) : Bool :=
  (match l.head? with
   | none => true
   | some c => !pyIsSpace c) &&
  (match l.getLast? with
   | none => true
   | some c => !pyIsSpace c)

/-- Python slicing `l[i:j]` with full Python semantics: negative indices
count from the end, out-of-range indices are clamped, and an empty list is
returned when the effective start is not before the effective stop. -/
def pySlice (l : Str) (i j : Int) : Str :=
  let n : Int := l.length
  let i' := min (max (if i < 0 then n + i else i) 0) n
  let j' := min (max (if j < 0 then n + j else j) 0) n
  (l.take j'.toNat).drop i'.toNat

/-- Helper for `rfindChar`: scan with a running index, remembering the last
position where the character occurred. -/
def rfindCharAux (c : Char) : Str → Int → Int → Int
  | [], _, best => best
  | x :: xs, i, best => rfindCharAux c xs (i + 1) (if x = c then i else best)

/-- Python `s.rfind(c)` for a single character: the highest index at which
`c` occurs, or `-1` if it does not occur. -/
def rfindChar (l : Str) (c : Char) : Int := rfindCharAux c l 0 (-1)

/-- Python `sep.join(parts)`. -/
def joinSep (sep : Str) : List Str → Str
  | [] => []
  | [x] => x
  | x :: xs => x ++ sep ++ joinSep sep xs

/-!  ## The chunker (`VectorDatabase.chunk_text`, vector_db.py lines 89-117) -/

/-- The end position of the window that starts at `start`
(vector_db.py lines 98-109): the window is `chunk_size` characters, and when
the window does not reach the end of the text, it is cut after the last `'.'`
or `'\n'` of the window provided `break_point > start + chunk_size // 2` —
the source compares the chunk-relative `rfind` result against this
start-offset bound.  Python `//` is `Int.fdiv`. -/
def windowEnd (text : Str) (cs : Int) (start : Int) : Int :=
  let e := start + cs
  if e < (text.length : Int) then
    let chunk := pySlice text start e
    let breakPoint := max (rfindChar chunk '.') (rfindChar chunk '\n')
    if breakPoint > start + Int.fdiv cs 2 then start + breakPoint + 1 else e
  else e

/-- The `while start < len(text)` loop of `chunk_text`
(vector_db.py lines 97-115), with explicit fuel.  Each iteration appends
`text[start:end].strip()` (with `end` possibly cut at a sentence boundary,
see `windowEnd`) and sets `start = end - overlap`, breaking when the new
start has passed the end of the text.  `none` = the fuel ran out before the
loop finished. -/
def chunkLoop (text : Str) (cs ov : Int) : Nat → Int → List Str → Option (List Str)
  | 0, start, acc => if start < (text.length : Int) then none else some acc
  | fuel + 1, start, acc =>
    if start < (text.length : Int) then
      let e2 := windowEnd text cs start
      let acc2 := acc ++ [pyStrip (pySlice text start e2)]
      let start2 := e2 - ov
      if start2 ≥ (text.length : Int) then some acc2
      else chunkLoop text cs ov fuel start2 acc2
    else some acc

/-- `VectorDatabase.chunk_text(text, chunk_size, overlap)`
(vector_db.py lines 89-117).  When the text fits in one window the whole
(unstripped) text is returned; otherwise the sliding-window loop runs. -/
def chunkTextFuel (fuel : Nat) (text : Str) (cs ov : Int) : Option (List Str) :=
  if (text.length : Int) ≤ cs then some [text] else chunkLoop text cs ov fuel 0 []

/-!  ## Data model (`VectorDatabase.__init__`: `index`, `documents`, `chunks`) -/

/-- An embedding vector (machine floats modelled as rationals). -/
abbrev Vec := List ℚ

/-- One entry of `structured_content['sections']` of the input
`document_data`. -/
structure SectionD where
  title : Str
  content : List Str
deriving DecidableEq

/-- One entry of `document_data['tables']`. -/
structure TableD where
  type : Str
  data : List (List Str)
deriving DecidableEq

/-- `document_data['metadata']`: `dict.get` misses are `none`. -/
structure MetaD where
  filename : Option Str
  company_name : Option Str
  document_type : Option Str
deriving DecidableEq

/-- The `document_data` dictionary consumed by `add_document`. -/
structure DocumentData where
  text_content : Str
  sections : List SectionD
  tables : List TableD
  metadata : MetaD
  processing_timestamp : Option Str
deriving DecidableEq

/-- The `document_metadata` record built by `add_document`
(vector_db.py lines 153-160) and stored in `self.documents`. -/
structure DocMeta where
  file_id : Str
  filename : Str
  company_name : Option Str
  document_type : Str
  processing_timestamp : Option Str
  chunk_count : Nat
deriving DecidableEq

/-- One record of `self.chunks` (vector_db.py lines 164-170). -/
structure ChunkRec where
  text : Str
  document_id : Str
  chunk_id : Nat
  document_metadata : DocMeta
deriving DecidableEq

/-- The in-memory state of a `VectorDatabase`: the FAISS index (its stored
vectors, in insertion order), the document catalog `self.documents`, and the
chunk store `self.chunks`. -/
structure State where
  index : List Vec
  documents : List DocMeta
  chunks : List ChunkRec
deriving DecidableEq

/-- The state of a fresh instance (empty index, no documents, no chunks). -/
def emptyState : State := ⟨[], [], []⟩

/-- The central invariant: the FAISS index and the chunk store have the
same number of entries (`self.index.ntotal == len(self.chunks)`). -/
def aligned (s : State) : Prop := s.index.length = s.chunks.length

/-- The external embedding call `self.embedding_model.encode(texts)`:
`none` models the call raising an exception. -/
abbrev Embed := List Str → Option (List Vec)

/-- A well-behaved embedder returns one vector per input text. -/
def EmbedLen (e : Embed) : Prop := ∀ ts vs, e ts = some vs → vs.length = ts.length

/-!  ## Text assembly and ingestion (`add_document`, lines 119-182) -/

/-- The text-assembly prefix of `add_document` (lines 122-138):
`text_content`, then every structured section, then every
`financial_statement` table rendered as pipe-delimited rows. -/
def assembleText (d : DocumentData) : Str :=
  let t1 := d.sections.foldl
    (fun acc sec =>
      acc ++ str "\n\nSection: " ++ sec.title ++ str "\n" ++ joinSep (str "\n") sec.content)
    d.text_content
  d.tables.foldl
    (fun acc tb =>
      if tb.type = str "financial_statement" then
        acc ++ ((str "\nFinancial Table (" ++ tb.type ++ str "):\n")
          ++ tb.data.foldl (fun a row => a ++ joinSep (str " | ") row ++ str "\n") [])
      else acc)
    t1

/-- `VectorDatabase.add_document(document_data, file_id)` (lines 119-182):
assemble the text, chunk it with the default parameters `(1000, 200)`,
encode all chunks in one batch; if the encode raises, the `except` branch
returns `False` with nothing mutated.  Otherwise the normalized vectors are
appended to the index, one chunk record per chunk is appended to the chunk
store (with `chunk_id` continuing from `len(self.chunks)`), and the document
record is appended to the catalog.  `norm` is `faiss.normalize_L2` acting on
one vector.  The outer `none` means the chunking loop did not finish within
`fuel` (the Python call would not return at all). -/
def addDocument (norm : Vec → Vec) (e : Embed) (fuel : Nat) (s : State)
    (d : DocumentData) (fid : Str) : Option (State × Bool) :=
  match chunkTextFuel fuel (assembleText d) 1000 200 with
  | none => none
  | some chunkList =>
    match e chunkList with
    | none => some (s, false)
    | some embs =>
      let meta : DocMeta :=
        { file_id := fid
          filename := d.metadata.filename.getD (str "unknown")
          company_name := d.metadata.company_name
          document_type := d.metadata.document_type.getD (str "unknown")
          processing_timestamp := d.processing_timestamp
          chunk_count := chunkList.length }
      let recs := chunkList.enum.map
        (fun p => ChunkRec.mk p.2 fid (s.chunks.length + p.1) meta)
      some ({ index := s.index ++ embs.map norm
              documents := s.documents ++ [meta]
              chunks := s.chunks ++ recs }, true)

/-!  ## Deletion (`delete_document`, lines 218-262) -/

/-- `VectorDatabase.delete_document(file_id)` (lines 218-262): partition the
chunk store by owner; report `False` (not found) when no chunk matches,
leaving everything untouched.  Otherwise the catalog and chunk store are
filtered first, and only then are the survivors re-encoded; if that encode
raises, the `except` branch returns `False` with the catalog and chunk store
already filtered but the index still holding the old vectors.  On success
the index is rebuilt from the survivors (or left empty when none remain). -/
def deleteDocument (norm : Vec → Vec) (e : Embed) (s : State) (fid : Str) :
    State × Bool :=
  let keep := s.chunks.filter (fun c => c.document_id ≠ fid)
  let removed := s.chunks.filter (fun c => c.document_id = fid)
  if removed.isEmpty then (s, false)
  else
    let docs2 := s.documents.filter (fun dc => dc.file_id ≠ fid)
    if keep.isEmpty then ({ index := [], documents := docs2, chunks := keep }, true)
    else
      match e (keep.map (fun c => c.text)) with
      | none => ({ index := s.index, documents := docs2, chunks := keep }, false)
      | some embs => ({ index := embs.map norm, documents := docs2, chunks := keep }, true)

/-!  ## Persistence load (`load_index`, lines 32-62) -/

/-- The three co-located artifacts (`faiss_index.bin`, `metadata.pkl`,
`chunks.pkl`) when all of them exist on disk. -/
structure Snapshot where
  index : List Vec
  documents : List DocMeta
  chunks : List ChunkRec
deriving DecidableEq

/-- `VectorDatabase.load_index()` (lines 32-62): when all three artifacts
exist their contents are adopted verbatim and the call returns `True`;
otherwise a fresh empty index is created and the call returns `False`.
The disk is `some snap` when all three artifacts exist. -/
def loadIndex (disk : Option Snapshot) (s : State) : State × Bool :=
  match disk with
  | some snap => ({ index := snap.index, documents := snap.documents, chunks := snap.chunks }, true)
  | none => ({ s with index := [] }, false)

/-!  ## Search (`search`, lines 184-208) -/

/-- The result loop of `search` (lines 197-202): walk the
`zip(scores[0], indices[0])` pairs; a pair passes when `idx >= 0` and
`score >= score_threshold`; `self.chunks[idx]` out of range raises
(`none`), which the `except` branch of `search` turns into `[]`. -/
def searchLoop (chunks : List ChunkRec) (thr : ℚ) :
    List (ℚ × Int) → List (ChunkRec × ℚ) → Option (List (ChunkRec × ℚ))
  | [], acc => some acc
  | (score, idx) :: rest, acc =>
    if 0 ≤ idx ∧ thr ≤ score then
      match chunks[idx.toNat]? with
      | none => none
      | some c => searchLoop chunks thr rest (acc ++ [(c, score)])
    else searchLoop chunks thr rest acc

/-- `VectorDatabase.search(query, k, score_threshold)` (lines 184-208).
An empty index returns `[]` immediately; otherwise `pairs` is the
`(score, idx)` sequence produced by `self.index.search` for the fixed query
and `k` (an oracle for the external FAISS call), and the loop filters it
against the threshold, attaching the chunk record and its score. -/
def search (s : State) (pairs : List (ℚ × Int)) (thr : ℚ) : List (ChunkRec × ℚ) :=
  if s.index.length = 0 then [] else (searchLoop s.chunks thr pairs []).getD []

/-!  ## Operation sequences -/

/-- One mutating operation of the engine. -/
inductive Op where
  | addDoc (d : DocumentData) (fid : Str)
  | delDoc (fid : Str)

/-- Apply one operation, with `e` the behavior of the embedding service
during that operation.  A chunker that does not finish (impossible with the
default parameters) leaves the state as-is. -/
def applyOp (norm : Vec → Vec) (e : Embed) (s : State) : Op → State
  | .addDoc d fid =>
    match addDocument norm e ((assembleText d).length) s d fid with
    | some (s2, _) => s2
    | none => s
  | .delDoc fid => (deleteDocument norm e s fid).1

/-- Run a sequence of operations, each with its own embedding behavior. -/
def runOps (norm : Vec → Vec) : List (Op × Embed) → State → State
  | [], s => s
  | (op, e) :: rest, s => runOps norm rest (applyOp norm e s op)

/-- `true` iff the operation avoids the one unprotected failure point: a
delete that finds chunks to remove, has survivors, and whose re-encode of
the survivors raises. -/
def stepOk (e : Embed) (s : State) : Op → Bool
  | .addDoc _ _ => true
  | .delDoc fid =>
    let keep := s.chunks.filter (fun c => c.document_id ≠ fid)
    let removed := s.chunks.filter (fun c => c.document_id = fid)
    if removed.isEmpty then true
    else if keep.isEmpty then true
    else (e (keep.map (fun c => c.text))).isSome

/-- `true` iff every operation of the run satisfies `stepOk` in the state
it actually executes in. -/
def runOk (norm : Vec → Vec) : List (Op × Embed) → State → Bool
  | [], _ => true
  | (op, e) :: rest, s => stepOk e s op && runOk norm rest (applyOp norm e s op)

/-!  ## Concrete instances used in the theorems below -/

/-- The identity in place of `faiss.normalize_L2` (the claims below never
depend on the numeric effect of normalization). -/
def normId : Vec → Vec := fun v => v

/-- An embedding service that always succeeds, returning a fixed
1-dimensional unit vector per input text. -/
def embedOne : Embed := fun ts => some (ts.map (fun _ => [(1 : ℚ)]))

/-- An embedding service whose call raises. -/
def embedFail : Embed := fun _ => none

/-- A minimal `document_data` dictionary with only plain text content. -/
def mkDoc (t : String) : DocumentData := ⟨str t, [], [], ⟨none, none, none⟩, none⟩

/-- Ingest documents `A` and `B`, then delete `A` while the embedding
service is down: the one op sequence used to break the alignment claim. -/
def exBad : List (Op × Embed) :=
  [(Op.addDoc (mkDoc "a") (str "A"), embedOne),
   (Op.addDoc (mkDoc "b") (str "B"), embedOne),
   (Op.delDoc (str "A"), embedFail)]

/-- A fully successful ingest-then-delete sequence. -/
def exGood : List (Op × Embed) :=
  [(Op.addDoc (mkDoc "a") (str "A"), embedOne),
   (Op.delDoc (str "A"), embedOne)]

/-- 20-character text whose only sentence terminator sits at index 6:
with `chunk_size=10, overlap=9` the window start cycles 0, -2, -1, 0, … . -/
def T20 : Str := str "abcdef.ghijklmnopqrs"

/-- 22-character text whose only sentence terminator sits at index 16:
the second window `[8,18)` sees it at relative position 8, past the window
midpoint 5, yet the source does not shorten that window. -/
def T22 : Str := str "abcdefghijklmnop.qrstu"

/-- Catalog record of a one-chunk document `B`. -/
def metaB : DocMeta := ⟨str "B", str "unknown", none, str "unknown", none, 1⟩

/-- The single chunk of document `B`. -/
def cB : ChunkRec := ⟨str "b", str "B", 0, metaB⟩

/-- A consistent one-document state. -/
def sB : State := ⟨[[1]], [metaB], [cB]⟩

/-- A persisted snapshot with two vectors but a single chunk record. -/
def badSnap : Snapshot := ⟨[[1], [1]], [], [cB]⟩

/-!  ## Helper lemmas: `pyStrip` leaves no edge whitespace -/

lemma head?_dropWhile {α : Type} {p : α → Bool} :
    ∀ (l : List α) (c : α), (l.dropWhile p).head? = some c → p c = false := by
  intro l
  induction l with
  | nil => intro c h; simp at h
  | cons x xs ih =>
    intro c h
    rw [List.dropWhile_cons] at h
    by_cases hp : p x
    · exact ih c (by simpa [hp] using h)
    · rw [if_neg hp] at h
      simp only [List.head?_cons, Option.some.injEq] at h
      rw [← h]
      exact Bool.eq_false_iff.mpr hp

lemma getLast?_dropWhile {α : Type} (p : α → Bool) :
    ∀ l : List α, l.dropWhile p ≠ [] → (l.dropWhile p).getLast? = l.getLast? := by
  intro l
  induction l with
  | nil => intro h; simp at h
  | cons x xs ih =>
    intro h
    rw [List.dropWhile_cons] at h ⊢
    by_cases hp : p x
    · simp only [hp, if_true] at h ⊢
      rw [ih h]
      have hxs : xs ≠ [] := by
        intro hh
        rw [hh] at h
        simp [List.dropWhile] at h
      cases xs with
      | nil => exact absurd rfl hxs
      | cons y ys => rw [List.getLast?_cons_cons]
    · simp [hp]

lemma noEdgeWhitespace_pyStrip (l : Str) : noEdgeWhitespace (pyStrip l) = true := by
  unfold pyStrip
  set k := l.dropWhile pyIsSpace with hk
  set m := k.reverse.dropWhile pyIsSpace with hm
  by_cases hme : m = []
  · simp [noEdgeWhitespace, hme]
  · have hhead : m.reverse.head? = k.head? := by
      rw [List.head?_reverse, getLast?_dropWhile pyIsSpace k.reverse hme,
        List.getLast?_reverse]
    have hrev : m.reverse ≠ [] := by simpa using hme
    obtain ⟨a, ha⟩ := Option.ne_none_iff_exists'.mp
      (fun hh => hrev (List.head?_eq_none_iff.mp hh))
    have hlast : m.reverse.getLast? = m.head? := List.getLast?_reverse m
    obtain ⟨b, hb⟩ : ∃ b, m.head? = some b := Option.ne_none_iff_exists'.mp
      (fun hh => hme (List.head?_eq_none_iff.mp hh))
    have hka : k.head? = some a := by rw [← hhead]; exact ha
    have hpa : pyIsSpace a = false := head?_dropWhile l a (hk ▸ hka)
    have hpb : pyIsSpace b = false := head?_dropWhile k.reverse b (by rw [← hm]; exact hb)
    unfold noEdgeWhitespace
    rw [ha, hlast, hb]
    simp [hpa, hpb]

/-!  ## Helper lemmas: the chunking loop -/

lemma windowEnd_bounds (text : Str) (cs ov start : Int)
    (hcs : 0 < cs) (_hov : 0 ≤ ov) (hov2 : ov ≤ Int.fdiv cs 2) (hst : 0 ≤ start) :
    start + 1 ≤ windowEnd text cs start - ov ∧ 0 ≤ windowEnd text cs start - ov := by
  have hfd : Int.fdiv cs 2 = cs / 2 := Int.fdiv_eq_ediv cs (by norm_num)
  rw [hfd] at hov2
  unfold windowEnd
  dsimp only
  split
  · split
    · rename_i hbp
      rw [hfd] at hbp
      omega
    · omega
  · omega

lemma chunkLoop_terminates (text : Str) (cs ov : Int)
    (hcs : 0 < cs) (hov : 0 ≤ ov) (hov2 : ov ≤ Int.fdiv cs 2) :
    ∀ (fuel : Nat) (start : Int) (acc : List Str), 0 ≤ start →
      (text.length : Int) ≤ start + fuel →
      ∃ l, chunkLoop text cs ov fuel start acc = some l := by
  intro fuel
  induction fuel with
  | zero =>
    intro start acc h0 hle
    refine ⟨acc, ?_⟩
    unfold chunkLoop
    rw [if_neg (by omega)]
  | succ n ih =>
    intro start acc h0 hle
    by_cases hlt : start < (text.length : Int)
    · have hb := windowEnd_bounds text cs ov start hcs hov hov2 h0
      simp only [chunkLoop]
      rw [if_pos hlt]
      by_cases hterm : windowEnd text cs start - ov ≥ (text.length : Int)
      · rw [if_pos hterm]
        exact ⟨_, rfl⟩
      · rw [if_neg hterm]
        refine ih (windowEnd text cs start - ov) _ hb.2 ?_
        push_cast at hle ⊢
        omega
    · refine ⟨acc, ?_⟩
      simp only [chunkLoop]
      rw [if_neg hlt]

lemma chunkLoop_length_mono (text : Str) (cs ov : Int) :
    ∀ (fuel : Nat) (start : Int) (acc l : List Str),
      chunkLoop text cs ov fuel start acc = some l → acc.length ≤ l.length := by
  intro fuel
  induction fuel with
  | zero =>
    intro start acc l h
    unfold chunkLoop at h
    split at h
    · exact absurd h (by simp)
    · cases h
      exact le_rfl
  | succ n ih =>
    intro start acc l h
    simp only [chunkLoop] at h
    split at h
    · split at h
      · cases h
        simp
      · have := ih _ _ _ h
        simp at this
        omega
    · cases h
      exact le_rfl

lemma chunkLoop_noEdge (text : Str) (cs ov : Int) :
    ∀ (fuel : Nat) (start : Int) (acc l : List Str),
      (∀ c ∈ acc, noEdgeWhitespace c = true) →
      chunkLoop text cs ov fuel start acc = some l →
      ∀ c ∈ l, noEdgeWhitespace c = true := by
  intro fuel
  induction fuel with
  | zero =>
    intro start acc l hacc h
    unfold chunkLoop at h
    split at h
    · exact absurd h (by simp)
    · cases h
      exact hacc
  | succ n ih =>
    intro start acc l hacc h
    have hacc2 : ∀ c ∈ acc ++ [pyStrip (pySlice text start (windowEnd text cs start))],
        noEdgeWhitespace c = true := by
      intro c hc
      rcases List.mem_append.mp hc with hc | hc
      · exact hacc c hc
      · rw [List.mem_singleton.mp hc]
        exact noEdgeWhitespace_pyStrip _
    simp only [chunkLoop] at h
    split at h
    · split at h
      · cases h
        exact hacc2
      · exact ih _ _ _ hacc2 h
    · cases h
      exact hacc

/-!  ## Helper lemmas: the concrete 0, -2, -1 cycle of `chunkLoop`
on `T20` with `chunk_size=10, overlap=9` -/

lemma cycleStep0 (n : Nat) (acc : List Str) :
    chunkLoop T20 10 9 (n + 1) 0 acc = chunkLoop T20 10 9 n (-2) (acc ++ [str "abcdef."]) := rfl

lemma cycleStepNeg2 (n : Nat) (acc : List Str) :
    chunkLoop T20 10 9 (n + 1) (-2) acc = chunkLoop T20 10 9 n (-1) (acc ++ [[]]) := rfl

lemma cycleStepNeg1 (n : Nat) (acc : List Str) :
    chunkLoop T20 10 9 (n + 1) (-1) acc = chunkLoop T20 10 9 n 0 (acc ++ [[]]) := rfl

lemma cycle_none : ∀ n : Nat,
    (∀ acc, chunkLoop T20 10 9 n 0 acc = none) ∧
    (∀ acc, chunkLoop T20 10 9 n (-2) acc = none) ∧
    (∀ acc, chunkLoop T20 10 9 n (-1) acc = none) := by
  intro n
  induction n with
  | zero => exact ⟨fun _ => rfl, fun _ => rfl, fun _ => rfl⟩
  | succ k ih =>
    refine ⟨fun acc => ?_, fun acc => ?_, fun acc => ?_⟩
    · rw [cycleStep0]
      exact ih.2.1 _
    · rw [cycleStepNeg2]
      exact ih.2.2 _
    · rw [cycleStepNeg1]
      exact ih.1 _

/-!  ## Claim theorems -/

/-- C3 (code bug): the spec says a window is shortened exactly when the last
sentence terminator or line break of the window lies past the window's
midpoint (`target_size / 2` characters from the window's start), regardless
of where the window begins.  The code instead compares the chunk-relative
`rfind` result against the absolute bound `start + chunk_size // 2`
(vector_db.py line 107).  Failing input: `chunk_text` on the 22-character
text `T22` with `chunk_size=10, overlap=2`.  The second window `[8,18)`
contains its last `'.'` at relative position 8, past the midpoint 5, yet
the returned second chunk is the unshortened window `"ijklmnop.q"` because
`8 > 8 + 5` fails. -/
theorem chunk_boundary_not_window_relative :
    chunkTextFuel 22 T22 10 2
        = some [str "abcdefghij", str "ijklmnop.q", str ".qrstu"] ∧
    rfindChar (pySlice T22 8 18) '.' = 8 ∧
    ((8 : Int) > Int.fdiv 10 2) ∧ ¬ ((8 : Int) > 8 + Int.fdiv 10 2) := by
  exact ⟨by decide, by decide, by decide, by decide⟩

/-- C4 (counterexample): the claim says `chunk_text` terminates for every
text and every parameter pair with `0 <= overlap < target_size` and
`target_size > 0`.  With `chunk_size=10, overlap=9` (valid per the claim)
on the 20-character text `T20`, boundary shortening at index 6 makes the
next start `7 - 9 = -2`; Python's negative-index slicing then yields empty
windows and the start cycles `0, -2, -1, 0, …` forever: the loop finishes
under no amount of fuel. -/
theorem chunk_text_nontermination :
    (0 : Int) < 10 ∧ (0 : Int) ≤ 9 ∧ (9 : Int) < 10 ∧
    ∀ fuel : Nat, chunkTextFuel fuel T20 10 9 = none := by
  refine ⟨by norm_num, by norm_num, by norm_num, ?_⟩
  intro fuel
  unfold chunkTextFuel
  rw [if_neg (by decide)]
  exact (cycle_none fuel).1 []

/-- C4 (amended): `chunk_text` terminates — the start strictly advances
until it passes the end of the text — for every input text whenever
additionally `overlap ≤ target_size // 2` (which covers the default
parameters `1000, 200`); fuel equal to the text length always suffices. -/
theorem chunk_text_terminates_small_overlap (text : Str) (cs ov : Int)
    (hcs : 0 < cs) (hov : 0 ≤ ov) (hov2 : ov ≤ Int.fdiv cs 2) :
    ∃ l, chunkTextFuel text.length text cs ov = some l := by
  unfold chunkTextFuel
  by_cases h : (text.length : Int) ≤ cs
  · rw [if_pos h]
    exact ⟨[text], rfl⟩
  · rw [if_neg h]
    exact chunkLoop_terminates text cs ov hcs hov hov2 text.length 0 [] le_rfl (by omega)

/-- Witness for `chunk_text_terminates_small_overlap` at
`text="aaaa", chunk_size=2, overlap=1`. -/
theorem chunk_text_terminates_small_overlap_witness :
    ((0 : Int) < 2 ∧ (0 : Int) ≤ 1 ∧ (1 : Int) ≤ Int.fdiv 2 2) ∧
    ∃ l, chunkTextFuel (str "aaaa").length (str "aaaa") 2 1 = some l :=
  ⟨⟨by norm_num, by norm_num, by decide⟩,
    chunk_text_terminates_small_overlap (str "aaaa") 2 1 (by norm_num) (by norm_num)
      (by decide)⟩

/-- C5 (counterexample): the claim says `overlap >= target_size` and
`target_size <= 0` are rejected before any chunking and the call returns no
chunk sequence.  The code contains no validation: with `overlap=15 ≥
target_size=10` the call on `"ab"` returns `["ab"]`, and with
`target_size=0` the call on `""` returns `[""]` — both succeed. -/
theorem chunk_text_no_param_validation :
    (10 : Int) ≤ 15 ∧ (0 : Int) ≤ 0 ∧
    chunkTextFuel 0 (str "ab") 10 15 = some [str "ab"] ∧
    chunkTextFuel 0 (str "") 0 0 = some [str ""] := by
  exact ⟨by norm_num, le_rfl, by decide, by decide⟩

/-- C5 (amended): `chunk_text` performs no parameter validation at all:
whenever the text fits in one window it returns `[text]` for arbitrary
`overlap` and `target_size`, including `overlap ≥ target_size` and
`target_size ≤ 0`; bad parameters are never rejected (instead the sliding
loop may fail to advance, see `chunk_text_nontermination`). -/
theorem chunk_text_accepts_any_params (text : Str) (cs ov : Int) (fuel : Nat)
    (h : (text.length : Int) ≤ cs) :
    chunkTextFuel fuel text cs ov = some [text] := by
  unfold chunkTextFuel
  rw [if_pos h]

/-- Witness for `chunk_text_accepts_any_params` at `"xy"`, `target_size=3`,
`overlap=7` (an `overlap ≥ target_size` configuration). -/
theorem chunk_text_accepts_any_params_witness :
    ((str "xy").length : Int) ≤ 3 ∧ chunkTextFuel 0 (str "xy") 3 7 = some [str "xy"] :=
  ⟨by decide, chunk_text_accepts_any_params (str "xy") 3 7 0 (by decide)⟩

/-- C6 (counterexample): the claim says every returned passage is trimmed,
including the single passage of the `len(text) <= target_size` path.  That
path returns `[text]` untrimmed (vector_db.py line 92): on `" a "` with the
default parameters the result is `[" a "]`, which has both leading and
trailing whitespace. -/
theorem chunk_text_short_path_unstripped :
    chunkTextFuel 1 (str " a ") 1000 200 = some [str " a "] ∧
    noEdgeWhitespace (str " a ") = false := by
  exact ⟨by decide, by decide⟩

/-- C6 (amended): every passage produced by the sliding-window path
(`len(text) > target_size`) is trimmed of leading and trailing whitespace;
only the single passage returned when `len(text) <= target_size` is the
whole text, untrimmed. -/
theorem chunk_text_loop_chunks_stripped (fuel : Nat) (text : Str) (cs ov : Int)
    (l : List Str) (hlen : cs < (text.length : Int))
    (h : chunkTextFuel fuel text cs ov = some l) :
    ∀ c ∈ l, noEdgeWhitespace c = true := by
  unfold chunkTextFuel at h
  rw [if_neg (by omega)] at h
  exact chunkLoop_noEdge text cs ov fuel 0 [] l (by simp) h

/-- Witness for `chunk_text_loop_chunks_stripped` at `"aaaa"`,
`target_size=2`, `overlap=0`. -/
theorem chunk_text_loop_chunks_stripped_witness :
    ((2 : Int) < ((str "aaaa").length : Int)) ∧
    chunkTextFuel 2 (str "aaaa") 2 0 = some [str "aa", str "aa"] ∧
    ∀ c ∈ [str "aa", str "aa"], noEdgeWhitespace c = true :=
  ⟨by decide, by decide,
    chunk_text_loop_chunks_stripped 2 (str "aaaa") 2 0 [str "aa", str "aa"]
      (by decide) (by decide)⟩

/-- C10 (confirmed): `chunk_text` never returns an empty sequence (for any
non-negative `target_size`, in particular the default `1000`), and hence a
document committed by `add_document` is always cataloged with
`chunk_count ≥ 1`: every record in the catalog after a successful add is
either an old record or has a positive chunk count. -/
theorem chunk_text_nonempty_catalog_positive :
    (∀ (fuel : Nat) (text : Str) (cs ov : Int) (l : List Str), 0 ≤ cs →
        chunkTextFuel fuel text cs ov = some l → l ≠ []) ∧
    (∀ (norm : Vec → Vec) (e : Embed) (fuel : Nat) (s : State) (d : DocumentData)
        (fid : Str) (s2 : State),
        addDocument norm e fuel s d fid = some (s2, true) →
        ∀ r ∈ s2.documents, r ∈ s.documents ∨ 1 ≤ r.chunk_count) := by
  have h1 : ∀ (fuel : Nat) (text : Str) (cs ov : Int) (l : List Str), 0 ≤ cs →
      chunkTextFuel fuel text cs ov = some l → l ≠ [] := by
    intro fuel text cs ov l hcs h
    unfold chunkTextFuel at h
    split at h
    · cases h
      simp
    · rename_i hgt
      have hpos : (0 : Int) < (text.length : Int) := by omega
      cases fuel with
      | zero =>
        unfold chunkLoop at h
        rw [if_pos hpos] at h
        exact absurd h (by simp)
      | succ n =>
        simp only [chunkLoop] at h
        rw [if_pos hpos] at h
        split at h
        · cases h
          simp
        · have := chunkLoop_length_mono text cs ov n _ _ _ h
          intro hnil
          rw [hnil] at this
          simp at this
  refine ⟨h1, ?_⟩
  intro norm e fuel s d fid s2 h r hr
  unfold addDocument at h
  cases hc : chunkTextFuel fuel (assembleText d) 1000 200 with
  | none => rw [hc] at h; exact absurd h (by simp)
  | some cl =>
    rw [hc] at h
    dsimp only at h
    cases he : e cl with
    | none =>
      rw [he] at h
      simp only [Option.some.injEq, Prod.mk.injEq] at h
      exact absurd h.2 (by simp)
    | some embs =>
      rw [he] at h
      simp only [Option.some.injEq, Prod.mk.injEq] at h
      rw [← h.1] at hr
      simp only at hr
      rcases List.mem_append.mp hr with hr | hr
      · exact Or.inl hr
      · right
        rw [List.mem_singleton.mp hr]
        have : cl ≠ [] := h1 fuel (assembleText d) 1000 200 cl (by norm_num) hc
        simp only
        exact Nat.one_le_iff_ne_zero.mpr (by simpa using this)

/-- Witness for `chunk_text_nonempty_catalog_positive`: the empty text
yields the one-element sequence `[""]`, and after ingesting document `"a"`
into an empty database every cataloged record has a positive chunk count. -/
theorem chunk_text_nonempty_catalog_positive_witness :
    ((0 : Int) ≤ 1000 ∧ chunkTextFuel 1 (str "") 1000 200 = some [str ""] ∧
      [str ""] ≠ []) ∧
    (addDocument normId embedOne 1 emptyState (mkDoc "a") (str "A")
        = some (((addDocument normId embedOne 1 emptyState (mkDoc "a")
            (str "A")).getD (emptyState, false)).1, true) ∧
      ∀ r ∈ (((addDocument normId embedOne 1 emptyState (mkDoc "a")
          (str "A")).getD (emptyState, false)).1).documents,
        r ∈ emptyState.documents ∨ 1 ≤ r.chunk_count) :=
  ⟨⟨by norm_num, by decide,
      chunk_text_nonempty_catalog_positive.1 1 (str "") 1000 200 [str ""]
        (by norm_num) (by decide)⟩,
    ⟨by decide,
      chunk_text_nonempty_catalog_positive.2 normId embedOne 1 emptyState
        (mkDoc "a") (str "A") _ (by decide)⟩⟩

/-- C2 (confirmed): whenever `add_document` reports failure, nothing was
committed: the index, the chunk store and the catalog are exactly as before
the call.  In the source every mutation happens after the one fallible
external step (the batch embedding call), so the `except` branch can only
run with the collections untouched. -/
theorem add_document_failure_atomic (norm : Vec → Vec) (e : Embed) (fuel : Nat)
    (s : State) (d : DocumentData) (fid : Str) (s2 : State)
    (h : addDocument norm e fuel s d fid = some (s2, false)) : s2 = s := by
  unfold addDocument at h
  cases hc : chunkTextFuel fuel (assembleText d) 1000 200 with
  | none => rw [hc] at h; exact absurd h (by simp)
  | some cl =>
    rw [hc] at h
    dsimp only at h
    cases he : e cl with
    | none =>
      rw [he] at h
      simp only [Option.some.injEq, Prod.mk.injEq] at h
      exact h.1.symm
    | some embs =>
      rw [he] at h
      simp only [Option.some.injEq, Prod.mk.injEq] at h
      exact absurd h.2 (by simp)

/-- Witness for `add_document_failure_atomic`: ingesting into an empty
database while the embedding service raises returns failure with the state
unchanged. -/
theorem add_document_failure_atomic_witness :
    addDocument normId embedFail 1 emptyState (mkDoc "a") (str "A")
        = some (emptyState, false) ∧ emptyState = emptyState :=
  ⟨by decide,
    add_document_failure_atomic normId embedFail 1 emptyState (mkDoc "a") (str "A")
      emptyState (by decide)⟩

/-- C8 (confirmed): when no chunk in the chunk store is owned by the given
document id, `delete_document` reports not-found (`False`) and leaves the
catalog, the chunk store and the index exactly as they were — the not-found
check runs before any mutation. -/
theorem delete_not_found_unchanged (norm : Vec → Vec) (e : Embed) (s : State)
    (fid : Str) (h : ∀ c ∈ s.chunks, c.document_id ≠ fid) :
    deleteDocument norm e s fid = (s, false) := by
  unfold deleteDocument
  have hrem : s.chunks.filter (fun c => c.document_id = fid) = [] := by
    rw [List.filter_eq_nil_iff]
    intro a ha
    simpa using h a ha
  rw [hrem]
  rfl

/-- Witness for `delete_not_found_unchanged`: deleting the unknown id `"A"`
from a database holding only document `"B"`. -/
theorem delete_not_found_unchanged_witness :
    (∀ c ∈ sB.chunks, c.document_id ≠ str "A") ∧
    deleteDocument normId embedOne sB (str "A") = (sB, false) :=
  ⟨by decide, delete_not_found_unchanged normId embedOne sB (str "A") (by decide)⟩

/-- C7 (counterexample): the claim says that when all three artifacts exist
the loader verifies `len(index) == len(chunks)` and treats a mismatch as a
fatal corruption.  `load_index` contains no such check: loading a snapshot
with two vectors and one chunk record succeeds (`True`) and silently leaves
the mismatched state in memory. -/
theorem load_index_accepts_mismatch :
    (loadIndex (some badSnap) emptyState).2 = true ∧
    (loadIndex (some badSnap) emptyState).1.index.length = 2 ∧
    (loadIndex (some badSnap) emptyState).1.chunks.length = 1 := by
  exact ⟨by decide, by decide, by decide⟩

/-- C7 (amended): when all three persisted artifacts exist, `load_index`
adopts their contents verbatim and reports success, performing no
consistency verification whatsoever — a vector/chunk count mismatch is
loaded silently rather than treated as corruption. -/
theorem load_index_no_verification :
    ∀ (snap : Snapshot) (s : State),
      loadIndex (some snap) s
        = ({ index := snap.index, documents := snap.documents,
             chunks := snap.chunks }, true) :=
  fun _ _ => rfl

/-!  ## Helper lemmas: the search filter loop -/

lemma searchLoop_some (chunks : List ChunkRec) (thr : ℚ) :
    ∀ (pairs : List (ℚ × Int)) (acc : List (ChunkRec × ℚ)),
      (∀ p ∈ pairs, 0 ≤ p.2 → p.2.toNat < chunks.length) →
      ∃ l, searchLoop chunks thr pairs acc = some l ∧
        l.length = acc.length
          + pairs.countP (fun p => decide (0 ≤ p.2) && decide (thr ≤ p.1)) := by
  intro pairs
  induction pairs with
  | nil => intro acc _; exact ⟨acc, rfl, by simp⟩
  | cons p rest ih =>
    intro acc hin
    obtain ⟨score, idx⟩ := p
    by_cases hp : 0 ≤ idx ∧ thr ≤ score
    · have hlt : idx.toNat < chunks.length := hin (score, idx) (by simp) hp.1
      have hc : chunks[idx.toNat]? = some chunks[idx.toNat] :=
        List.getElem?_eq_getElem hlt
      obtain ⟨l, hl, hlen⟩ := ih (acc ++ [(chunks[idx.toNat], score)])
        (fun q hq => hin q (List.mem_cons_of_mem _ hq))
      refine ⟨l, ?_, ?_⟩
      · simp only [searchLoop]
        rw [if_pos hp, hc]
        exact hl
      · rw [hlen, List.countP_cons]
        have hb : (decide (0 ≤ idx) && decide (thr ≤ score)) = true := by
          simp [hp.1, hp.2]
        rw [hb]
        simp
        omega
    · obtain ⟨l, hl, hlen⟩ := ih acc (fun q hq => hin q (List.mem_cons_of_mem _ hq))
      refine ⟨l, ?_, ?_⟩
      · simp only [searchLoop]
        rw [if_neg hp]
        exact hl
      · rw [hlen, List.countP_cons]
        have hb : (decide (0 ≤ idx) && decide (thr ≤ score)) = false := by
          simpa using hp
        rw [hb]
        simp

lemma searchLoop_scores (chunks : List ChunkRec) (thr : ℚ) :
    ∀ (pairs : List (ℚ × Int)) (acc l : List (ChunkRec × ℚ)),
      searchLoop chunks thr pairs acc = some l →
      ∀ r ∈ l, r ∈ acc ∨ thr ≤ r.2 := by
  intro pairs
  induction pairs with
  | nil =>
    intro acc l h r hr
    cases h
    exact Or.inl hr
  | cons p rest ih =>
    intro acc l h r hr
    obtain ⟨score, idx⟩ := p
    simp only [searchLoop] at h
    by_cases hp : 0 ≤ idx ∧ thr ≤ score
    · rw [if_pos hp] at h
      cases hc : chunks[idx.toNat]? with
      | none =>
        rw [hc] at h
        exact absurd h (by simp)
      | some c =>
        rw [hc] at h
        dsimp only at h
        rcases ih _ _ h r hr with hmem | hsc
        · rcases List.mem_append.mp hmem with h1 | h1
          · exact Or.inl h1
          · right
            rw [List.mem_singleton.mp h1]
            exact hp.2
        · exact Or.inr hsc
    · rw [if_neg hp] at h
      exact ih _ _ h r hr

/-- C9 (confirmed): for a fixed query, `k` and index contents — i.e. a fixed
`(score, idx)` sequence from `self.index.search`, whose indices FAISS keeps
below the (aligned) chunk count — raising the threshold never increases the
number of results returned by `search`, and every returned result scores at
least the threshold. -/
theorem search_threshold_monotone (s : State) (pairs : List (ℚ × Int)) (t1 t2 : ℚ)
    (h12 : t1 ≤ t2)
    (hin : ∀ p ∈ pairs, 0 ≤ p.2 → p.2.toNat < s.chunks.length) :
    (search s pairs t2).length ≤ (search s pairs t1).length ∧
    ∀ r ∈ search s pairs t2, t2 ≤ r.2 := by
  unfold search
  by_cases hidx : s.index.length = 0
  · rw [if_pos hidx, if_pos hidx]
    simp
  · rw [if_neg hidx, if_neg hidx]
    obtain ⟨l2, hl2, hlen2⟩ := searchLoop_some s.chunks t2 pairs [] hin
    obtain ⟨l1, hl1, hlen1⟩ := searchLoop_some s.chunks t1 pairs [] hin
    rw [hl1, hl2]
    simp only [Option.getD_some]
    constructor
    · rw [hlen1, hlen2]
      simp only [List.length_nil, Nat.zero_add]
      apply List.countP_mono_left
      intro x _ hx
      simp only [Bool.and_eq_true, decide_eq_true_eq] at hx ⊢
      exact ⟨hx.1, le_trans h12 hx.2⟩
    · intro r hr
      rcases searchLoop_scores s.chunks t2 pairs [] l2 hl2 r hr with hmem | hsc
      · exact absurd hmem (List.not_mem_nil r)
      · exact hsc

/-- Witness for `search_threshold_monotone` on the one-document state `sB`
with the FAISS result `[(1, 0)]` and thresholds `0 ≤ 1`. -/
theorem search_threshold_monotone_witness :
    ((0 : ℚ) ≤ 1) ∧
    (∀ p ∈ [((1 : ℚ), (0 : Int))], 0 ≤ p.2 → p.2.toNat < sB.chunks.length) ∧
    ((search sB [((1 : ℚ), (0 : Int))] 1).length
        ≤ (search sB [((1 : ℚ), (0 : Int))] 0).length ∧
      ∀ r ∈ search sB [((1 : ℚ), (0 : Int))] 1, (1 : ℚ) ≤ r.2) :=
  ⟨by norm_num, by decide,
    search_threshold_monotone sB [((1 : ℚ), (0 : Int))] 0 1 (by norm_num) (by decide)⟩

/-!  ## Helper lemmas: alignment of index and chunk store -/

lemma embedOne_len : EmbedLen embedOne := by
  intro ts vs h
  simp only [embedOne, Option.some.injEq] at h
  rw [← h]
  simp

lemma aligned_applyOp (norm : Vec → Vec) (e : Embed) (s : State) (op : Op)
    (hlen : EmbedLen e) (hok : stepOk e s op = true) (hs : aligned s) :
    aligned (applyOp norm e s op) := by
  cases op with
  | addDoc d fid =>
    simp only [applyOp]
    cases hc : addDocument norm e ((assembleText d).length) s d fid with
    | none => exact hs
    | some r =>
      obtain ⟨s2, b⟩ := r
      unfold addDocument at hc
      cases hck : chunkTextFuel ((assembleText d).length) (assembleText d) 1000 200 with
      | none =>
        rw [hck] at hc
        exact absurd hc (by simp)
      | some cl =>
        rw [hck] at hc
        dsimp only at hc
        cases he : e cl with
        | none =>
          rw [he] at hc
          simp only [Option.some.injEq, Prod.mk.injEq] at hc
          rw [← hc.1]
          exact hs
        | some embs =>
          rw [he] at hc
          simp only [Option.some.injEq, Prod.mk.injEq] at hc
          rw [← hc.1]
          unfold aligned at hs ⊢
          simp only [List.length_append, List.length_map, List.enum_length]
          rw [hs, hlen cl embs he]
  | delDoc fid =>
    simp only [applyOp, deleteDocument]
    simp only [stepOk] at hok
    by_cases hrem : (s.chunks.filter (fun c => decide (c.document_id = fid))).isEmpty
    · rw [if_pos hrem]
      exact hs
    · rw [if_neg hrem]
      rw [if_neg hrem] at hok
      by_cases hkeep : (s.chunks.filter (fun c => decide ¬(c.document_id = fid))).isEmpty
      · rw [if_pos hkeep]
        unfold aligned
        simp only [List.length_nil]
        rw [List.isEmpty_iff] at hkeep
        rw [hkeep]
        rfl
      · rw [if_neg hkeep]
        rw [if_neg hkeep] at hok
        cases he : e ((s.chunks.filter (fun c => decide ¬(c.document_id = fid))).map
            (fun c => c.text)) with
        | none =>
          rw [he] at hok
          exact absurd hok (by simp)
        | some vs =>
          dsimp only
          unfold aligned
          simp only [List.length_map]
          rw [hlen _ _ he]
          simp

/-- C1 (amended): the alignment invariant `len(index) == len(chunk_store)`
holds after every operation of any ingest/delete sequence, provided no
delete in the sequence suffers an embedding failure while re-encoding its
survivors (`runOk`); a delete whose survivor re-encode raises leaves the
chunk store filtered but the index stale (see
`alignment_broken_by_failed_delete`).  Quantifying over all operation lists
covers every prefix of a run, i.e. the state after each operation. -/
theorem alignment_invariant_amended (norm : Vec → Vec) (ops : List (Op × Embed))
    (s : State) (hlen : ∀ p ∈ ops, EmbedLen p.2) (hok : runOk norm ops s = true)
    (hs : aligned s) : aligned (runOps norm ops s) := by
  induction ops generalizing s with
  | nil => exact hs
  | cons p rest ih =>
    obtain ⟨op, e⟩ := p
    simp only [runOk, Bool.and_eq_true] at hok
    exact ih (applyOp norm e s op) (fun q hq => hlen q (List.mem_cons_of_mem _ hq))
      hok.2 (aligned_applyOp norm e s op (hlen (op, e) (List.mem_cons_self _ _)) hok.1 hs)

/-- C1 (counterexample): the claim asserts `len(index) == len(chunks)` after
every ingest/delete operation.  Ingest `"A"` and `"B"` (one chunk each),
then delete `"A"` while the embedding service raises: `delete_document`
filters `documents` and `chunks` before re-encoding, the `except` branch
returns `False`, and the state is left with 2 vectors in the index but 1
chunk record — the invariant is broken after that operation completes. -/
theorem alignment_broken_by_failed_delete :
    (runOps normId exBad emptyState).index.length = 2 ∧
    (runOps normId exBad emptyState).chunks.length = 1 := by
  exact ⟨by decide, by decide⟩

/-- Witness for `alignment_invariant_amended` on the successful sequence
`exGood` (ingest `"A"`, then delete it). -/
theorem alignment_invariant_amended_witness :
    (∀ p ∈ exGood, EmbedLen p.2) ∧ runOk normId exGood emptyState = true ∧
    aligned emptyState ∧ aligned (runOps normId exGood emptyState) := by
  have hlen : ∀ p ∈ exGood, EmbedLen p.2 := by
    intro p hp
    simp only [exGood, List.mem_cons, List.mem_singleton] at hp
    rcases hp with hp | hp | hp
    · rw [hp]
      exact embedOne_len
    · rw [hp]
      exact embedOne_len
    · exact absurd hp (List.not_mem_nil p)
  exact ⟨hlen, by decide, rfl,
    alignment_invariant_amended normId exGood emptyState hlen (by decide) rfl⟩

end RagDB
